import Mathlib

/-!
Verification of the deterministic candidate-job matching engine of the
RoleSync backend (`backend/app/ai/match_score.py` and
`backend/app/ai/project_relevance.py`).

Modelling conventions:
* Python floats are modelled by exact rationals `ℚ`; Python's `round(x, n)`
  (round-half-to-even) is modelled by `pyRound2` / `pyRound3` on `ℚ`.
* Python strings are Lean `String`s; `str.lower()` is modelled per-character
  by `Char.toLower` (basic-latin case folding), `str.strip()` and the regex
  `\s` class by the whitespace set `pyWS`.
* Dictionary fields that may be absent are `Option`-valued; Python truthiness
  of the relevant values is modelled explicitly.
* List entries of unknown runtime type are modelled by `Entry`
  (a string, or a non-string value that makes `.strip()` raise).
* `difflib.SequenceMatcher(None, a, b).ratio()` (CPython's stdlib) is
  modelled faithfully: the b-side autojunk heuristic, the longest-chain scan
  of `find_longest_match` with its four extension loops, the recursive
  matching-block decomposition, and the `2*M/T` ratio with the `T = 0 ⇒ 1.0`
  special case.
-/

namespace RoleSync

/-! ## Basic character / string utilities -/

/-- Whitespace class of Python's `str.strip()` and the regex `\s`. -/
def pyWS (c : Char) : Bool :=
  c = ' ' || c = '\t' || c = '\n' || c = '\r' || c = '\x0b' || c = '\x0c'

/-- Python `str.strip()` on a character list: drop whitespace at both ends. -/
def stripL (l : List Char) : List Char :=
  ((l.dropWhile pyWS).reverse.dropWhile pyWS).reverse

/-- Python `str.lower()` on a character list (basic-latin case folding). -/
def lowerL (l : List Char) : List Char :=
  l.map Char.toLower

/-- Collapse every maximal run of whitespace into a single space
(the effect of `re.sub(r'\s+', ' ', s)`). -/
def collapseWS : List Char → List Char
  | [] => []
  | [c] => if pyWS c then [' '] else [c]
  | c₁ :: c₂ :: rest =>
    if pyWS c₁ && pyWS c₂ then collapseWS (c₂ :: rest)
    else (if pyWS c₁ then ' ' else c₁) :: collapseWS (c₂ :: rest)

/-- Python `str.strip()` on strings. -/
def pyStrip (s : String) : String := ⟨stripL s.data⟩

/-- Python `str.lower()` on strings. -/
def pyLower (s : String) : String := ⟨lowerL s.data⟩

/-- Does `l` start with `p`? (Python `str.startswith` on char lists.) -/
def startsWithL : List Char → List Char → Bool
  | [], _ => true
  | _ :: _, [] => false
  | a :: as, b :: bs => a = b && startsWithL as bs

/-- Python substring containment `needle in hay` on char lists. -/
def containsL (needle : List Char) : List Char → Bool
  | [] => startsWithL needle []
  | hay@(_ :: t) => startsWithL needle hay || containsL needle t

/-- Python substring containment on strings. -/
def strContains (hay needle : String) : Bool := containsL needle.data hay.data

/-! ## Rounding (Python `round`, round-half-to-even, on exact rationals) -/

/-- Round a rational to the nearest integer, ties to even (Python `round`). -/
def pyRoundInt (q : ℚ) : ℤ :=
  if q - ⌊q⌋ < 1/2 then ⌊q⌋
  else if (1:ℚ)/2 < q - ⌊q⌋ then ⌊q⌋ + 1
  else if ⌊q⌋ % 2 = 0 then ⌊q⌋ else ⌊q⌋ + 1

/-- Python `round(q, 2)`. -/
def pyRound2 (q : ℚ) : ℚ := (pyRoundInt (q * 100) : ℚ) / 100

/-- Python `round(q, 3)`. -/
def pyRound3 (q : ℚ) : ℚ := (pyRoundInt (q * 1000) : ℚ) / 1000

/-! ## Model of `difflib.SequenceMatcher(None, a, b).ratio()` -/

/-- The autojunk heuristic of `SequenceMatcher.__chain_b`: when `b` has at
least 200 elements, every element occurring more than `len(b) // 100 + 1`
times is junk. -/
def bJunk (b : List Char) : Char → Bool :=
  fun c => decide (200 ≤ b.length) && decide (b.length / 100 + 1 < b.count c)

/-- Is `(i, j)` a matching position: both indices in range, equal characters,
and `b`'s character not junk (junk positions are absent from `b2j`)? -/
def matchAt (junk : Char → Bool) (a b : List Char) (i j : ℕ) : Bool :=
  match a[i]?, b[j]? with
  | some x, some y => x = y && !junk y
  | _, _ => false

/-- Length of the matching chain ending at `(i, j)` — the value
`j2len[j] = j2len_prev[j-1] + 1` maintained by `find_longest_match`. -/
def chainLen (junk : Char → Bool) (a b : List Char) : ℕ → ℕ → ℕ
  | 0, j => if matchAt junk a b 0 j then 1 else 0
  | i + 1, 0 => if matchAt junk a b (i + 1) 0 then 1 else 0
  | i + 1, j + 1 =>
    if matchAt junk a b (i + 1) (j + 1) then chainLen junk a b i j + 1 else 0

/-- Iterate `g` over `count` consecutive indices starting at `start`. -/
def upFold {α : Type} (g : ℕ → α → α) : ℕ → ℕ → α → α
  | _, 0, x => x
  | s, c + 1, x => upFold g (s + 1) c (g s x)

/-- One update step of the `find_longest_match` double loop: record the block
ending at `(i, j)` (as start positions plus size) when it strictly beats the
current best. -/
def bestStep (junk : Char → Bool) (a b : List Char) (i j : ℕ)
    (best : ℕ × ℕ × ℕ) : ℕ × ℕ × ℕ :=
  let k := chainLen junk a b i j
  if best.2.2 < k then (i + 1 - k, j + 1 - k, k) else best

/-- The double scan of `find_longest_match` (rows `i` ascending, columns `j`
ascending), starting from `besti, bestj, bestsize = alo, blo, 0`. -/
def bestEnd (junk : Char → Bool) (a b : List Char) : ℕ × ℕ × ℕ :=
  upFold (fun i acc => upFold (fun j acc' => bestStep junk a b i j acc') 0 b.length acc)
    0 a.length (0, 0, 0)

/-- The two leftward extension loops of `find_longest_match`: extend the block
while the preceding characters are equal and the junkness of `b`'s character
equals `junkFlag`. -/
def extLeft (junkFlag : Bool) (junk : Char → Bool) (a b : List Char) :
    ℕ → ℕ → ℕ → ℕ × ℕ × ℕ
  | 0, bj, k => (0, bj, k)
  | bi + 1, 0, k => (bi + 1, 0, k)
  | bi + 1, bj + 1, k =>
    match a[bi]?, b[bj]? with
    | some x, some y =>
      if x = y && junk y = junkFlag then extLeft junkFlag junk a b bi bj (k + 1)
      else (bi + 1, bj + 1, k)
    | _, _ => (bi + 1, bj + 1, k)

/-- The two rightward extension loops of `find_longest_match` (fueled; the
index checks `bi+k < len a`, `bj+k < len b` are the `[·]?` lookups). -/
def extRight (junkFlag : Bool) (junk : Char → Bool) (a b : List Char) :
    ℕ → ℕ → ℕ → ℕ → ℕ
  | 0, _, _, k => k
  | fuel + 1, bi, bj, k =>
    match a[bi + k]?, b[bj + k]? with
    | some x, some y =>
      if x = y && junk y = junkFlag then extRight junkFlag junk a b fuel bi bj (k + 1)
      else k
    | _, _ => k

/-- `find_longest_match` over whole windows: the best chain of the double
scan, then the four extension loops (left/right over non-junk, then left/right
over junk). -/
def findLongestMatch (junk : Char → Bool) (a b : List Char) : ℕ × ℕ × ℕ :=
  let t₀ := bestEnd junk a b
  let t₁ := extLeft false junk a b t₀.1 t₀.2.1 t₀.2.2
  let k₂ := extRight false junk a b (a.length + 1) t₁.1 t₁.2.1 t₁.2.2
  let t₃ := extLeft true junk a b t₁.1 t₁.2.1 k₂
  let k₄ := extRight true junk a b (a.length + 1) t₃.1 t₃.2.1 t₃.2.2
  (t₃.1, t₃.2.1, k₄)

/-- Total size of all matching blocks (`get_matching_blocks` recursion,
fueled; the fuel `len a + len b + 1` always suffices). -/
def matchTotal (junk : Char → Bool) : ℕ → List Char → List Char → ℕ
  | 0, _, _ => 0
  | fuel + 1, a, b =>
    let t := findLongestMatch junk a b
    if t.2.2 = 0 then 0
    else
      t.2.2 + matchTotal junk fuel (a.take t.1) (b.take t.2.1) +
        matchTotal junk fuel (a.drop (t.1 + t.2.2)) (b.drop (t.2.1 + t.2.2))

/-- `SequenceMatcher(None, a, b).ratio()` on char lists:
`2M / (len a + len b)`, and `1.0` when both are empty. -/
def seqRatio (a b : List Char) : ℚ :=
  let M := matchTotal (bJunk b) (a.length + b.length + 1) a b
  if a.length + b.length = 0 then 1
  else (2 * M : ℚ) / ((a.length : ℚ) + (b.length : ℚ))

/-! ## `backend/app/ai/project_relevance.py` -/

/-- A runtime value found in a list field: a string, or a truthy non-string
value (on which `.strip()` / string methods raise `AttributeError`). -/
inductive Entry : Type
  | strE (s : String)
  | junkE
  deriving DecidableEq, Repr

/-- The `_clean` normalizer:
`re.sub(r'\s+', ' ', (s or "").strip().lower())`. -/
def _clean (s : String) : String :=
  ⟨collapseWS (lowerL (stripL s.data))⟩

/-- The `_clean` normalizer applied to an optional (possibly `None`) string:
`(s or "")` maps `None` to `""`. -/
def _cleanOpt (s : Option String) : String := _clean (s.getD "")

/-- Applying `_clean` to a dynamically typed value: a non-string truthy value
raises (`AttributeError` on `.strip()`). -/
def _cleanE : Entry → Except Unit String
  | .strE s => .ok (_clean s)
  | .junkE => .error ()

/-- The `_similarity` helper:
`SequenceMatcher(None, _clean(a), _clean(b)).ratio()`. -/
def _similarity (a b : String) : ℚ :=
  seqRatio (_clean a).data (_clean b).data

/-- `project_relevance_score(projects, responsibilities, threshold=0.35)`.
The result is `Except Unit ℚ`: a raised exception inside the loops (a
non-string entry) propagates to the caller. -/
def project_relevance_score (projects responsibilities : List Entry)
    (threshold : ℚ := 0.35) : Except Unit ℚ := do
  if responsibilities.isEmpty then return 1
  if projects.isEmpty then return 0
  let scores ← responsibilities.foldlM (fun (acc : List ℚ) r => do
    let r_clean ← _cleanE r
    if r_clean = "" then return acc
    let best ← projects.foldlM (fun (best : ℚ) p => do
      let p_clean ← _cleanE p
      if p_clean = "" then return best
      let sim := _similarity p_clean r_clean
      if best < sim then return sim else return best) (0 : ℚ)
    return acc ++ [if threshold ≤ best then best else 0]) []
  if scores.isEmpty then return 0
  return pyRound3 (scores.sum / (scores.length : ℚ))

/-! ## `backend/app/ai/match_score.py` -/

/-- A value accepted by `parse_experience_to_int`: a number (`int`/`float`,
modelled exactly as a rational) or a string. -/
inductive ExpVal : Type
  | numV (q : ℚ)
  | strV (s : String)
  deriving DecidableEq, Repr

/-- Python truthiness of an `ExpVal` (`0`, `0.0` and `""` are falsy). -/
def truthyV : ExpVal → Bool
  | .numV q => q ≠ 0
  | .strV s => s ≠ ""

/-- Python truthiness of an optional `ExpVal` (`None` is falsy). -/
def truthyO : Option ExpVal → Bool
  | none => false
  | some v => truthyV v

/-- Python `int()` on a number: truncation toward zero. -/
def truncQ (q : ℚ) : ℤ := if q < 0 then ⌈q⌉ else ⌊q⌋

/-- Value of a digit run (most significant first). -/
def digitsVal (l : List Char) : ℕ :=
  l.foldl (fun a c => a * 10 + (c.toNat - 48)) 0

/-- `re.match(r"(\d+)\s*-\s*(\d+)", text)`: a leading digit run, optional
whitespace, a dash, optional whitespace, a digit run; yields `(A + B) // 2`. -/
def matchRange (l : List Char) : Option ℕ :=
  if (l.takeWhile Char.isDigit).isEmpty then none
  else
    match (l.dropWhile Char.isDigit).dropWhile pyWS with
    | '-' :: r =>
      if ((r.dropWhile pyWS).takeWhile Char.isDigit).isEmpty then none
      else some ((digitsVal (l.takeWhile Char.isDigit) +
        digitsVal ((r.dropWhile pyWS).takeWhile Char.isDigit)) / 2)
    | _ => none

/-- `re.match(r"(\d+)\s*\+", text)`: a leading digit run, optional whitespace,
then `+`; yields `A`. -/
def matchPlus (l : List Char) : Option ℕ :=
  if (l.takeWhile Char.isDigit).isEmpty then none
  else
    match (l.dropWhile Char.isDigit).dropWhile pyWS with
    | '+' :: _ => some (digitsVal (l.takeWhile Char.isDigit))
    | _ => none

/-- `re.search(r"(\d+)", text)`: the leftmost maximal digit run anywhere. -/
def searchNum (l : List Char) : Option ℕ :=
  if (l.dropWhile (fun c => !c.isDigit)).isEmpty then none
  else some (digitsVal ((l.dropWhile (fun c => !c.isDigit)).takeWhile Char.isDigit))

/-- The keyword-heuristic tail of `parse_experience_to_int`, applied to the
lowercased stripped text. -/
def keywordYears (l : List Char) : Option ℕ :=
  if containsL "intern".data l || containsL "entry".data l then some 0
  else if containsL "junior".data l then some 1
  else if containsL "mid".data l then some 3
  else if containsL "senior".data l then some 5
  else if containsL "lead".data l || containsL "principal".data l then some 7
  else none

/-- The numeric patterns of `parse_experience_to_int` alone (range, plus,
any embedded number), in their resolution order. -/
def numericYears (l : List Char) : Option ℕ :=
  match matchRange l with
  | some v => some v
  | none =>
    match matchPlus l with
    | some v => some v
    | none => searchNum l

/-- `parse_experience_to_int(exp)`: `None` passes through, numbers truncate to
`int`, strings go through `str(exp).lower().strip()` and then the numeric
patterns followed by the keyword heuristics. -/
def parse_experience_to_int : Option ExpVal → Option ℤ
  | none => none
  | some (.numV q) => some (truncQ q)
  | some (.strV s) =>
    match numericYears (stripL (lowerL s.data)) with
    | some v => some (v : ℤ)
    | none => (keywordYears (stripL (lowerL s.data))).map fun n => (n : ℤ)

/-- `_normalize_list(x)`:
`[s.strip() for s in (x or []) if isinstance(s, str) and s.strip()]`. -/
def _normalize_list (x : Option (List Entry)) : List String :=
  (x.getD []).filterMap fun e =>
    match e with
    | .strE s => let t := pyStrip s; if t = "" then none else some t
    | .junkE => none

/-- Candidate dictionary: the fields read by the scorer. -/
structure Candidate : Type where
  skills : Option (List Entry)
  projects : Option (List Entry)
  parsed_text : Option String
  raw_text : Option String
  experience_years : Option ℚ
  deriving DecidableEq, Repr

/-- Job-role dictionary: the fields read by the scorer. `parsed_experience_level`
models `job_role.get("parsed", {}).get("experience_level")`. -/
structure Job : Type where
  required_skills : Option (List Entry)
  preferred_skills : Option (List Entry)
  responsibilities : Option (List Entry)
  experience_level : Option ExpVal
  parsed_experience_level : Option ExpVal
  deriving DecidableEq, Repr

/-- The five-component breakdown returned under the `components` key. -/
structure Components : Type where
  required_coverage : ℚ
  preferred_coverage : ℚ
  semantic_fit : ℚ
  project_relevance : ℚ
  experience_fit : ℚ
  deriving DecidableEq, Repr

/-- The result dictionary of a scorer. -/
structure ScoreResult : Type where
  score : ℚ
  components : Components
  explanations : List String
  method : String
  deriving DecidableEq, Repr

/-- Decimal rendering of a rational on the 2-decimal grid, as Python's `repr`
renders the corresponding floats (`100.0`, `66.67`, `23.5`). -/
def fmtQ (q : ℚ) : String :=
  let sign := if q < 0 then "-" else ""
  let n := q.num.natAbs
  let d := q.den
  if q.den = 1 then sign ++ toString n ++ ".0"
  else if (q * 10).den = 1 then
    sign ++ toString (n * 10 / d / 10) ++ "." ++ toString (n * 10 / d % 10)
  else if (q * 100).den = 1 then
    sign ++ toString (n * 100 / d / 100) ++ "." ++
      toString (n * 100 / d % 100 / 10) ++ toString (n * 100 / d % 10)
  else sign ++ toString n ++ "/" ++ toString d

/-- `job_role.get("experience_level") or job_role.get("parsed", {}).get("experience_level")`. -/
def jobExpLevel (j : Job) : Option ExpVal :=
  if truthyO j.experience_level then j.experience_level
  else j.parsed_experience_level

/-- `candidate.get("experience_years") or 0`. -/
def candExpYears (c : Candidate) : ℚ :=
  match c.experience_years with
  | some q => if q ≠ 0 then q else 0
  | none => 0

/-- `(candidate.get("parsed_text") or candidate.get("raw_text") or "")`. -/
def candText (c : Candidate) : String :=
  match c.parsed_text with
  | some t => if t ≠ "" then t else (c.raw_text.getD "")
  | none => c.raw_text.getD ""

/-- `deterministic_score(candidate, job_role)`. -/
def deterministic_score (candidate : Candidate) (job_role : Job) : ScoreResult :=
  let cand_sk := (_normalize_list candidate.skills).map pyLower
  let req := (_normalize_list job_role.required_skills).map pyLower
  let pref := (_normalize_list job_role.preferred_skills).map pyLower
  let projects := _normalize_list candidate.projects
  let raw_text := pyLower (candText candidate)
  let req_cov : ℚ :=
    if !req.isEmpty then
      pyRound2 (100 * ((req.countP fun r => cand_sk.contains r : ℕ) / (req.length : ℚ)))
    else 100
  let pref_cov : ℚ :=
    if !pref.isEmpty then
      pyRound2 (100 * ((pref.countP fun p => cand_sk.contains p : ℕ) / (pref.length : ℚ)))
    else 100
  let proj_score : ℚ :=
    match project_relevance_score (projects.map .strE)
        ((job_role.responsibilities).getD []) with
    | .ok v => pyRound2 (v * 100)
    | .error _ => 0
  let ideal := parse_experience_to_int (jobExpLevel job_role)
  let cand_exp := candExpYears candidate
  let exp_score : ℚ :=
    match ideal with
    | none => 50
    | some i =>
      if i ≤ 0 then 50
      else if (i : ℚ) ≤ cand_exp then 100
      else pyRound2 (cand_exp / (i : ℚ) * 100)
  let keys := req ++ pref
  let semantic_score : ℚ :=
    if !keys.isEmpty then
      pyRound2 (100 * ((keys.countP fun k =>
        k ≠ "" && strContains raw_text (pyLower k) : ℕ) / (keys.length : ℚ)))
    else 50
  let total := req_cov * 0.35 + pref_cov * 0.15 + semantic_score * 0.15 +
    proj_score * 0.2 + exp_score * 0.15
  { score := pyRound2 total
    components :=
      { required_coverage := req_cov
        preferred_coverage := pref_cov
        semantic_fit := semantic_score
        project_relevance := proj_score
        experience_fit := exp_score }
    explanations :=
      ["Required skill match: " ++ fmtQ req_cov ++ "%",
       "Preferred skill match: " ++ fmtQ pref_cov ++ "%",
       "Project relevance: " ++ fmtQ proj_score ++ "%",
       "Experience fit: " ++ fmtQ exp_score ++ "%"]
    method := "deterministic" }

/-- `compute_match_score(candidate, job_role, use_llm=True)`. The Gemini call
is an external oracle: `oracle = some r` stands for a successfully parsed LLM
payload, `none` for any raised exception; `geminiKey` for the module-level
`_GENAI_KEY`. The function first (possibly) mutates `job_role`; the returned
triple carries the result together with the post-call states of the two
caller-owned dictionaries. -/
def compute_match_score (oracle : Option ScoreResult) (geminiKey : Bool)
    (candidate : Candidate) (job_role : Job) (use_llm : Bool := true) :
    ScoreResult × Candidate × Job :=
  let job' :=
    if !truthyO job_role.experience_level && truthyO job_role.parsed_experience_level
    then { job_role with experience_level := job_role.parsed_experience_level }
    else job_role
  let res :=
    if use_llm && geminiKey then
      match oracle with
      | some r => r
      | none => deterministic_score candidate job'
    else deterministic_score candidate job'
  (res, candidate, job')

/-! ## Concrete inputs used by witnesses and counterexamples -/

/-- Candidate of the end-to-end example: skills Python and SQL, nothing else. -/
def cand3 : Candidate :=
  { skills := some [.strE "Python", .strE "SQL"]
    projects := none
    parsed_text := none
    raw_text := none
    experience_years := none }

/-- Job of the end-to-end example: required Python, SQL, AWS; nothing else. -/
def job3 : Job :=
  { required_skills := some [.strE "Python", .strE "SQL", .strE "AWS"]
    preferred_skills := some []
    responsibilities := none
    experience_level := none
    parsed_experience_level := none }

/-! ## Supporting lemmas for the scorer -/

/-- The returned score is the 2-decimal rounding of the weighted sum of the
returned components. -/
lemma score_weighted (c : Candidate) (j : Job) :
    (deterministic_score c j).score =
      pyRound2 (0.35 * (deterministic_score c j).components.required_coverage +
        0.15 * (deterministic_score c j).components.preferred_coverage +
        0.15 * (deterministic_score c j).components.semantic_fit +
        0.20 * (deterministic_score c j).components.project_relevance +
        0.15 * (deterministic_score c j).components.experience_fit) := by
  change pyRound2 ((deterministic_score c j).components.required_coverage * 0.35 +
    (deterministic_score c j).components.preferred_coverage * 0.15 +
    (deterministic_score c j).components.semantic_fit * 0.15 +
    (deterministic_score c j).components.project_relevance * 0.2 +
    (deterministic_score c j).components.experience_fit * 0.15) = _
  congr 1
  ring

/-- Required coverage on the end-to-end example: 2 of 3 required skills. -/
lemma c3_req : (deterministic_score cand3 job3).components.required_coverage = 66.67 := by
  have h1 : (_normalize_list job3.required_skills).map pyLower = ["python", "sql", "aws"] := by decide
  have h3 : (_normalize_list cand3.skills).map pyLower = ["python", "sql"] := by decide
  simp only [deterministic_score]
  norm_num +decide [h1, h3, pyRound2, pyRoundInt, Int.fract]

/-- Preferred coverage on the end-to-end example: no preferred skills. -/
lemma c3_pref : (deterministic_score cand3 job3).components.preferred_coverage = 100 := by
  have h2 : (_normalize_list job3.preferred_skills).map pyLower = ([] : List String) := by decide
  simp only [deterministic_score]
  norm_num +decide [h2]

/-- Semantic fit on the end-to-end example: empty resume text. -/
lemma c3_sem : (deterministic_score cand3 job3).components.semantic_fit = 0 := by
  have h1 : (_normalize_list job3.required_skills).map pyLower = ["python", "sql", "aws"] := by decide
  have h2 : (_normalize_list job3.preferred_skills).map pyLower = ([] : List String) := by decide
  have h7 : candText cand3 = "" := by decide
  simp only [deterministic_score]
  norm_num +decide [h1, h2, h7, pyRound2, pyRoundInt, Int.fract]

/-- Project relevance on the end-to-end example: no responsibilities. -/
lemma c3_proj : (deterministic_score cand3 job3).components.project_relevance = 100 := by
  have hp : project_relevance_score (List.map Entry.strE (_normalize_list cand3.projects))
      (job3.responsibilities.getD []) = .ok 1 := rfl
  simp only [deterministic_score]
  rw [hp]
  norm_num [pyRound2, pyRoundInt, Int.fract]

/-- Experience fit on the end-to-end example: no experience requirement. -/
lemma c3_exp : (deterministic_score cand3 job3).components.experience_fit = 50 := by
  have h6 : jobExpLevel job3 = none := by decide
  simp only [deterministic_score]
  rw [h6]
  norm_num [parse_experience_to_int]

/-- Overall score on the end-to-end example: the weighted sum is 65.8345. -/
lemma c3_score : (deterministic_score cand3 job3).score = 65.83 := by
  have h := score_weighted cand3 job3
  rw [c3_req, c3_pref, c3_sem, c3_proj, c3_exp] at h
  rw [h]
  norm_num [pyRound2, pyRoundInt, Int.fract]

/-! ## Claim theorems -/

/-- C1: for every candidate and job, the deterministic scorer's overall score
equals the fixed-weight sum `0.35·requiredCoverage + 0.15·preferredCoverage +
0.15·semanticFit + 0.20·projectRelevance + 0.15·experienceFit` over the five
already-rounded component values it returns, rounded to 2 decimals; the
weights are the same constants on every call. -/
theorem overall_score_is_fixed_weighted_sum (c : Candidate) (j : Job) :
    (deterministic_score c j).score =
      pyRound2 (0.35 * (deterministic_score c j).components.required_coverage +
        0.15 * (deterministic_score c j).components.preferred_coverage +
        0.15 * (deterministic_score c j).components.semantic_fit +
        0.20 * (deterministic_score c j).components.project_relevance +
        0.15 * (deterministic_score c j).components.experience_fit) :=
  score_weighted c j

/-- C3 counterexample: on the end-to-end example input the scorer's overall
score is not the claimed 65.84 (it is 65.83: the exact weighted sum is
65.8345, whose 2-decimal rounding is 65.83). -/
theorem end_to_end_score_not_65_84 :
    (deterministic_score cand3 job3).score ≠ 65.84 := by
  rw [c3_score]
  norm_num

/-- C3 (amended): on the end-to-end example input the scorer returns
requiredCoverage 66.67, preferredCoverage 100.0, semanticFit 0.0,
projectRelevance 100.0, experienceFit 50.0, and overall score 65.83. -/
theorem end_to_end_example_breakdown :
    (deterministic_score cand3 job3).components.required_coverage = 66.67 ∧
    (deterministic_score cand3 job3).components.preferred_coverage = 100 ∧
    (deterministic_score cand3 job3).components.semantic_fit = 0 ∧
    (deterministic_score cand3 job3).components.project_relevance = 100 ∧
    (deterministic_score cand3 job3).components.experience_fit = 50 ∧
    (deterministic_score cand3 job3).score = 65.83 :=
  ⟨c3_req, c3_pref, c3_sem, c3_proj, c3_exp, c3_score⟩

/-- A character list containing a digit always yields a `re.search` result. -/
lemma searchNum_isSome {l : List Char} (h : l.any Char.isDigit = true) :
    (searchNum l).isSome = true := by
  have hne : l.dropWhile (fun c => !c.isDigit) ≠ [] := by
    intro hnil
    rw [List.dropWhile_eq_nil_iff] at hnil
    obtain ⟨c, hc, hd⟩ := List.any_eq_true.mp h
    have := hnil c hc
    simp [hd] at this
  unfold searchNum
  simp [List.isEmpty_iff, hne]

/-- A character list containing a digit always yields a numeric-pattern
result. -/
lemma numericYears_isSome {l : List Char} (h : l.any Char.isDigit = true) :
    (numericYears l).isSome = true := by
  unfold numericYears
  cases hm : matchRange l with
  | some v => simp
  | none =>
    cases hp : matchPlus l with
    | some v => simp
    | none => exact searchNum_isSome h

/-- When the lowercased stripped text contains a digit, the parse result comes
from the numeric patterns alone (keyword heuristics are never consulted). -/
lemma parse_str_numeric {s : String}
    (h : (stripL (lowerL s.data)).any Char.isDigit = true) :
    parse_experience_to_int (some (.strV s)) =
      (numericYears (stripL (lowerL s.data))).map (fun n => (n : ℤ)) := by
  obtain ⟨v, hv⟩ := Option.isSome_iff_exists.mp (numericYears_isSome h)
  simp [parse_experience_to_int, hv]

/-! ## C4 / C10 theorems -/

/-- C4: the experience parser follows the fixed rule precedence: the worked
examples of the spec evaluate as stated, and whenever the normalized text
contains a digit sequence anywhere, the result comes from the numeric
patterns (which then necessarily produce a value), so no keyword heuristic
can ever override an embedded number. -/
theorem parse_experience_rule_precedence :
    parse_experience_to_int (some (.strV "3-5")) = some 4 ∧
    parse_experience_to_int (some (.strV "5+")) = some 5 ∧
    parse_experience_to_int (some (.strV "Senior")) = some 5 ∧
    parse_experience_to_int (some (.strV "Senior, 2+ years")) = some 2 ∧
    parse_experience_to_int (some (.strV "no idea")) = none ∧
    ∀ s : String, (stripL (lowerL s.data)).any Char.isDigit = true →
      parse_experience_to_int (some (.strV s)) =
        (numericYears (stripL (lowerL s.data))).map (fun n => (n : ℤ)) ∧
      (numericYears (stripL (lowerL s.data))).isSome = true :=
  ⟨by decide, by decide, by decide, by decide, by decide,
    fun s h => ⟨parse_str_numeric h, numericYears_isSome h⟩⟩

/-- C4 witness: the mixed input `"Senior, 2+ years"` satisfies the digit
hypothesis, and the precedence law applies to it. -/
theorem parse_experience_rule_precedence_witness :
    (stripL (lowerL ("Senior, 2+ years").data)).any Char.isDigit = true ∧
    parse_experience_to_int (some (.strV "Senior, 2+ years")) =
      (numericYears (stripL (lowerL ("Senior, 2+ years").data))).map
        (fun n => (n : ℤ)) :=
  ⟨by decide,
    (parse_experience_rule_precedence.2.2.2.2.2 "Senior, 2+ years" (by decide)).1⟩

/-- C10: on every string input the parser terminates with either no result or
a non-negative integer; already-numeric input is truncated toward zero (the
only way to obtain a negative result). -/
theorem parse_experience_total_and_nonneg :
    (∀ s : String, parse_experience_to_int (some (.strV s)) = none ∨
      ∃ n : ℕ, parse_experience_to_int (some (.strV s)) = some (n : ℤ)) ∧
    (∀ q : ℚ, parse_experience_to_int (some (.numV q)) = some (truncQ q)) := by
  refine ⟨fun s => ?_, fun q => rfl⟩
  cases hn : numericYears (stripL (lowerL s.data)) with
  | some v => exact Or.inr ⟨v, by simp [parse_experience_to_int, hn]⟩
  | none =>
    cases hk : keywordYears (stripL (lowerL s.data)) with
    | some k => exact Or.inr ⟨k, by simp [parse_experience_to_int, hn, hk]⟩
    | none => exact Or.inl (by simp [parse_experience_to_int, hn, hk])

/-- C10 witness: the string `"5+"` yields the non-negative value 5, and the
numeric input `-3.7` truncates toward zero to `-3`. -/
theorem parse_experience_total_and_nonneg_witness :
    (parse_experience_to_int (some (.strV "5+")) = none ∨
      ∃ n : ℕ, parse_experience_to_int (some (.strV "5+")) = some (n : ℤ)) ∧
    parse_experience_to_int (some (.numV (-3.7))) = some (truncQ (-3.7)) :=
  ⟨parse_experience_total_and_nonneg.1 "5+",
    parse_experience_total_and_nonneg.2 (-3.7)⟩

/-! ## C5 theorem -/

/-- C5: the project-relevance scorer returns 1.0 whenever the
responsibilities sequence is empty, for every projects sequence, and returns
0.0 whenever responsibilities is non-empty and projects is empty. -/
theorem project_relevance_empty_policies :
    (∀ (projects : List Entry) (t : ℚ),
      project_relevance_score projects [] t = .ok 1) ∧
    (∀ (projects responsibilities : List Entry) (t : ℚ),
      responsibilities ≠ [] → projects = [] →
      project_relevance_score projects responsibilities t = .ok 0) := by
  refine ⟨fun projects t => rfl, fun projects responsibilities t hr hp => ?_⟩
  subst hp
  cases responsibilities with
  | nil => exact absurd rfl hr
  | cons r rs => rfl

/-- C5 witness: a non-string project entry with no responsibilities still
scores 1.0, and a job with one responsibility scores 0.0 against an empty
project list. -/
theorem project_relevance_empty_policies_witness :
    project_relevance_score [.junkE] [] 0.35 = .ok 1 ∧
    project_relevance_score [] [.strE "ship feature"] 0.35 = .ok 0 :=
  ⟨project_relevance_empty_policies.1 [.junkE] 0.35,
    project_relevance_empty_policies.2 [] [.strE "ship feature"] 0.35
      (by simp) rfl⟩

/-! ## C8 theorems -/

/-- C8 counterexample: the deterministic breakdown does not contain one
explanation per component — on the end-to-end example input the explanations
list has 4 entries, not 5 (there is no entry for `semanticFit`). -/
theorem explanations_not_five :
    ¬((deterministic_score cand3 job3).explanations.length = 5) := by
  intro h
  have h4 : (deterministic_score cand3 job3).explanations.length = 4 := rfl
  rw [h4] at h
  exact absurd h (by norm_num)

/-- C8 (amended): the explanations sequence of a deterministic breakdown has
exactly four entries — for requiredCoverage, preferredCoverage,
projectRelevance and experienceFit, in that order, each a fixed template
applied to the corresponding returned component value; `semanticFit` has no
explanation entry. -/
theorem explanations_one_per_reported_component (c : Candidate) (j : Job) :
    (deterministic_score c j).explanations =
      ["Required skill match: " ++
        fmtQ (deterministic_score c j).components.required_coverage ++ "%",
       "Preferred skill match: " ++
        fmtQ (deterministic_score c j).components.preferred_coverage ++ "%",
       "Project relevance: " ++
        fmtQ (deterministic_score c j).components.project_relevance ++ "%",
       "Experience fit: " ++
        fmtQ (deterministic_score c j).components.experience_fit ++ "%"] ∧
    (deterministic_score c j).explanations.length = 4 :=
  ⟨rfl, rfl⟩

/-! ## C6 theorems -/

/-- Concrete job for the mutation counterexample: no top-level experience
level, but a parsed one. -/
def job6 : Job :=
  { required_skills := none
    preferred_skills := none
    responsibilities := none
    experience_level := none
    parsed_experience_level := some (.strV "3-5") }

/-- Concrete candidate for the mutation counterexample. -/
def cand6 : Candidate :=
  { skills := none
    projects := none
    parsed_text := none
    raw_text := none
    experience_years := none }

/-- C6 counterexample: `compute_match_score` does not leave the caller's
`job_role` mapping unchanged — when `experience_level` is absent and
`parsed.experience_level` is present, the call writes the parsed value into
`job_role["experience_level"]`. -/
theorem compute_match_score_mutates_job :
    (compute_match_score none false cand6 job6).2.2 ≠ job6 := by
  intro h
  have : (compute_match_score none false cand6 job6).2.2.experience_level =
      some (.strV "3-5") := rfl
  rw [h] at this
  exact Option.noConfusion this

/-- C6 (amended): scoring never modifies the candidate mapping, and modifies
`job_role` in exactly one way: when `experience_level` is falsy and
`parsed.experience_level` is truthy, it is overwritten with the parsed value;
otherwise `job_role` is returned unchanged (in particular the deterministic
scorer itself, a pure function of its arguments, mutates nothing). -/
theorem compute_match_score_frame (oracle : Option ScoreResult)
    (geminiKey : Bool) (c : Candidate) (j : Job) (use_llm : Bool) :
    (compute_match_score oracle geminiKey c j use_llm).2.1 = c ∧
    (compute_match_score oracle geminiKey c j use_llm).2.2 =
      (if !truthyO j.experience_level && truthyO j.parsed_experience_level
       then { j with experience_level := j.parsed_experience_level }
       else j) :=
  ⟨rfl, rfl⟩

/-! ## C2 theorem -/

/-- C2: the deterministic scorer is total (this Lean function never fails)
and always returns a structurally complete deterministic breakdown; on
incomplete inputs it uses the neutral defaults: empty (normalized) required
skills give coverage 100, likewise preferred; an empty required-plus-preferred
key list gives semanticFit 50; an absent or non-positive normalized
experience requirement gives experienceFit 50; and an exception raised inside
the project-relevance computation is caught and scored as projectRelevance 0. -/
theorem deterministic_score_neutral_defaults (c : Candidate) (j : Job) :
    (deterministic_score c j).method = "deterministic" ∧
    (_normalize_list j.required_skills = [] →
      (deterministic_score c j).components.required_coverage = 100) ∧
    (_normalize_list j.preferred_skills = [] →
      (deterministic_score c j).components.preferred_coverage = 100) ∧
    (_normalize_list j.required_skills = [] → _normalize_list j.preferred_skills = [] →
      (deterministic_score c j).components.semantic_fit = 50) ∧
    (parse_experience_to_int (jobExpLevel j) = none →
      (deterministic_score c j).components.experience_fit = 50) ∧
    (∀ i : ℤ, parse_experience_to_int (jobExpLevel j) = some i → i ≤ 0 →
      (deterministic_score c j).components.experience_fit = 50) ∧
    (project_relevance_score ((_normalize_list c.projects).map .strE)
        (j.responsibilities.getD []) = .error () →
      (deterministic_score c j).components.project_relevance = 0) := by
  refine ⟨rfl, fun h => ?_, fun h => ?_, fun h1 h2 => ?_, fun h => ?_,
    fun i h hi => ?_, fun h => ?_⟩
  · simp only [deterministic_score]
    simp [h]
  · simp only [deterministic_score]
    simp [h]
  · simp only [deterministic_score]
    simp [h1, h2]
  · simp only [deterministic_score]
    simp [h]
  · simp only [deterministic_score]
    simp [h, hi]
  · simp only [deterministic_score]
    simp [h]

/-- Candidate of the C2 witness: one project, nothing else. -/
def cand2w : Candidate :=
  { skills := none
    projects := some [.strE "p"]
    parsed_text := none
    raw_text := none
    experience_years := none }

/-- Job of the C2 witness: everything absent except a non-string
responsibility entry, which makes the project-relevance computation raise. -/
def job2w : Job :=
  { required_skills := none
    preferred_skills := none
    responsibilities := some [.junkE]
    experience_level := none
    parsed_experience_level := none }

/-- C2 witness: on a maximally incomplete input every neutral default fires
at once. -/
theorem deterministic_score_neutral_defaults_witness :
    (deterministic_score cand2w job2w).components.required_coverage = 100 ∧
    (deterministic_score cand2w job2w).components.preferred_coverage = 100 ∧
    (deterministic_score cand2w job2w).components.semantic_fit = 50 ∧
    (deterministic_score cand2w job2w).components.experience_fit = 50 ∧
    (deterministic_score cand2w job2w).components.project_relevance = 0 :=
  ⟨(deterministic_score_neutral_defaults cand2w job2w).2.1 rfl,
   (deterministic_score_neutral_defaults cand2w job2w).2.2.1 rfl,
   (deterministic_score_neutral_defaults cand2w job2w).2.2.2.1 rfl rfl,
   (deterministic_score_neutral_defaults cand2w job2w).2.2.2.2.1 (by decide),
   (deterministic_score_neutral_defaults cand2w job2w).2.2.2.2.2.2 rfl⟩

/-! ## Character-level lemmas for the text normalizer -/

lemma toNat_ofNat_valid {n : Nat} (h : n.isValidChar) : (Char.ofNat n).toNat = n := by
  simp [Char.ofNat, h, Char.ofNatAux, Char.toNat, UInt32.toNat]

lemma charEq_of_toNat {a b : Char} (h : a.toNat = b.toNat) : a = b :=
  Char.ext (UInt32.ext h)

lemma charEq_iff_toNat {a b : Char} : a = b ↔ a.toNat = b.toNat :=
  ⟨fun h => h ▸ rfl, charEq_of_toNat⟩

lemma toNat_toLower (c : Char) :
    c.toLower.toNat = if 65 ≤ c.toNat ∧ c.toNat ≤ 90 then c.toNat + 32 else c.toNat := by
  simp only [Char.toLower]
  split
  · next h =>
    have hv : (c.toNat + 32).isValidChar := Or.inl (by omega)
    rw [toNat_ofNat_valid hv]
  · rfl

lemma toLower_toLower (c : Char) : c.toLower.toLower = c.toLower := by
  apply charEq_of_toNat
  simp only [toNat_toLower]
  split_ifs <;> omega

lemma pyWS_iff (c : Char) : pyWS c = true ↔
    c.toNat = 32 ∨ c.toNat = 9 ∨ c.toNat = 10 ∨ c.toNat = 13 ∨
      c.toNat = 11 ∨ c.toNat = 12 := by
  simp only [pyWS, Bool.or_eq_true, decide_eq_true_eq, charEq_iff_toNat,
    show (' ').toNat = 32 from rfl, show ('\t').toNat = 9 from rfl,
    show ('\n').toNat = 10 from rfl, show ('\r').toNat = 13 from rfl,
    show ('\x0b').toNat = 11 from rfl, show ('\x0c').toNat = 12 from rfl]
  tauto

lemma pyWS_toLower (c : Char) : pyWS c.toLower = pyWS c := by
  have ht := toNat_toLower c
  by_cases h : 65 ≤ c.toNat ∧ c.toNat ≤ 90
  · rw [if_pos h] at ht
    have h1 : pyWS c = false := by
      rw [← Bool.not_eq_true, pyWS_iff]
      omega
    have h2 : pyWS c.toLower = false := by
      rw [← Bool.not_eq_true, pyWS_iff, ht]
      omega
    rw [h1, h2]
  · rw [if_neg h] at ht
    rw [charEq_of_toNat ht]

/-! ## List-level lemmas for the text normalizer -/

lemma dropWhile_head_false {p : Char → Bool} :
    ∀ {l : List Char} {c : Char}, (l.dropWhile p).head? = some c → p c = false := by
  intro l
  induction l with
  | nil =>
    intro c h
    simp [List.dropWhile] at h
  | cons a t ih =>
    intro c h
    by_cases ha : p a
    · rw [List.dropWhile_cons_of_pos ha] at h
      exact ih h
    · rw [List.dropWhile_cons_of_neg ha] at h
      cases h
      simpa using ha

lemma dropWhile_eq_self_of_head {p : Char → Bool} {l : List Char} {c : Char}
    (h : l.head? = some c) (hc : p c = false) : l.dropWhile p = l := by
  cases l with
  | nil => rfl
  | cons a t =>
    cases h
    simp [List.dropWhile, hc]

lemma stripL_head_ws {l : List Char} {c : Char}
    (h : (stripL l).head? = some c) : pyWS c = false := by
  unfold stripL at h
  rw [List.head?_reverse] at h
  obtain ⟨pre, hpre⟩ := List.dropWhile_suffix (l := (l.dropWhile pyWS).reverse) pyWS
  have h2 : (l.dropWhile pyWS).reverse.getLast? = some c := by
    rw [← hpre, List.getLast?_append, h]
    rfl
  rw [List.getLast?_reverse] at h2
  exact dropWhile_head_false h2

lemma stripL_getLast_ws {l : List Char} {c : Char}
    (h : (stripL l).getLast? = some c) : pyWS c = false := by
  unfold stripL at h
  rw [List.getLast?_reverse] at h
  exact dropWhile_head_false h

lemma stripL_eq_self {l : List Char}
    (h1 : ∀ c, l.head? = some c → pyWS c = false)
    (h2 : ∀ c, l.getLast? = some c → pyWS c = false) : stripL l = l := by
  cases l with
  | nil => rfl
  | cons a t =>
    unfold stripL
    rw [dropWhile_eq_self_of_head (l := a :: t) (c := a) rfl (h1 a rfl)]
    cases hg : (a :: t).getLast? with
    | none => simp at hg
    | some d =>
      rw [dropWhile_eq_self_of_head (l := (a :: t).reverse) (c := d)
        (by rw [List.head?_reverse]; exact hg) (h2 d hg), List.reverse_reverse]

/-! ## Lemmas about whitespace collapsing -/

lemma collapse_nil : collapseWS [] = [] := rfl

lemma collapse_singleton (c : Char) :
    collapseWS [c] = if pyWS c then [' '] else [c] := rfl

lemma collapse_cons_cons (c₁ c₂ : Char) (rest : List Char) :
    collapseWS (c₁ :: c₂ :: rest) =
      if pyWS c₁ && pyWS c₂ then collapseWS (c₂ :: rest)
      else (if pyWS c₁ then ' ' else c₁) :: collapseWS (c₂ :: rest) := rfl

lemma collapse_head (c : Char) (t : List Char) :
    (collapseWS (c :: t)).head? = some (if pyWS c then ' ' else c) := by
  induction t generalizing c with
  | nil =>
    rw [collapse_singleton]
    by_cases h : pyWS c <;> simp [h]
  | cons c₂ rest ih =>
    rw [collapse_cons_cons]
    by_cases hb : pyWS c && pyWS c₂
    · rw [if_pos hb, ih c₂]
      have h1 : pyWS c = true := (Bool.and_eq_true_iff.mp hb).1
      have h2 : pyWS c₂ = true := (Bool.and_eq_true_iff.mp hb).2
      rw [if_pos h1, if_pos h2]
    · rw [if_neg hb]
      rfl

lemma collapse_cons_ne_nil (c : Char) (t : List Char) : collapseWS (c :: t) ≠ [] := by
  intro h
  have := collapse_head c t
  rw [h] at this
  simp at this

lemma getLast?_cons_of_ne_nil {a : Char} {l : List Char} (h : l ≠ []) :
    (a :: l).getLast? = l.getLast? := by
  cases l with
  | nil => exact absurd rfl h
  | cons b t => exact List.getLast?_cons_cons

lemma collapse_getLast :
    ∀ (l : List Char) (c : Char), l.getLast? = some c → pyWS c = false →
      (collapseWS l).getLast? = some c
  | [], c, h, _ => by simp at h
  | [a], c, h, hws => by
    have ha : a = c := by simpa using h
    subst ha
    rw [collapse_singleton, if_neg (by simp [hws])]
    exact h
  | c₁ :: c₂ :: rest, c, h, hws => by
    rw [List.getLast?_cons_cons] at h
    rw [collapse_cons_cons]
    by_cases hb : pyWS c₁ && pyWS c₂
    · rw [if_pos hb]
      exact collapse_getLast (c₂ :: rest) c h hws
    · rw [if_neg hb, getLast?_cons_of_ne_nil (collapse_cons_ne_nil c₂ rest)]
      exact collapse_getLast (c₂ :: rest) c h hws

lemma mem_collapse :
    ∀ {l : List Char} {c : Char}, c ∈ collapseWS l → c = ' ' ∨ c ∈ l
  | [], c, h => by simp [collapse_nil] at h
  | [a], c, h => by
    rw [collapse_singleton] at h
    by_cases ha : pyWS a
    · rw [if_pos ha] at h
      exact Or.inl (by simpa using h)
    · rw [if_neg ha] at h
      exact Or.inr (by simpa using h)
  | c₁ :: c₂ :: rest, c, h => by
    rw [collapse_cons_cons] at h
    by_cases hb : pyWS c₁ && pyWS c₂
    · rw [if_pos hb] at h
      rcases mem_collapse h with h' | h'
      · exact Or.inl h'
      · exact Or.inr (List.mem_cons_of_mem _ h')
    · rw [if_neg hb] at h
      rcases List.mem_cons.mp h with h' | h'
      · by_cases h1 : pyWS c₁
        · rw [if_pos h1] at h'
          exact Or.inl h'
        · rw [if_neg h1] at h'
          exact Or.inr (h' ▸ List.mem_cons_self c₁ (c₂ :: rest))
      · rcases mem_collapse h' with h'' | h''
        · exact Or.inl h''
        · exact Or.inr (List.mem_cons_of_mem _ h'')

lemma collapse_ws_only :
    ∀ {l : List Char} {c : Char}, c ∈ collapseWS l → pyWS c = true → c = ' '
  | [], c, h, _ => by simp [collapse_nil] at h
  | [a], c, h, hws => by
    rw [collapse_singleton] at h
    by_cases ha : pyWS a
    · rw [if_pos ha] at h
      simpa using h
    · rw [if_neg ha] at h
      have : c = a := by simpa using h
      rw [this] at hws
      rw [hws] at ha
      exact absurd rfl ha
  | c₁ :: c₂ :: rest, c, h, hws => by
    rw [collapse_cons_cons] at h
    by_cases hb : pyWS c₁ && pyWS c₂
    · rw [if_pos hb] at h
      exact collapse_ws_only h hws
    · rw [if_neg hb] at h
      rcases List.mem_cons.mp h with h' | h'
      · by_cases h1 : pyWS c₁
        · rw [if_pos h1] at h'
          exact h'
        · rw [if_neg h1] at h'
          rw [h'] at hws
          rw [hws] at h1
          exact absurd rfl h1
      · exact collapse_ws_only h' hws

/-- The relation of the no-adjacent-whitespace chain. -/
def noWSPair (a b : Char) : Prop := ¬(pyWS a = true ∧ pyWS b = true)

lemma collapse_chain :
    ∀ l : List Char, List.Chain' noWSPair (collapseWS l)
  | [] => by simp [collapse_nil]
  | [a] => by
    rw [collapse_singleton]
    by_cases h : pyWS a <;> simp [h]
  | c₁ :: c₂ :: rest => by
    rw [collapse_cons_cons]
    by_cases hb : pyWS c₁ && pyWS c₂
    · rw [if_pos hb]
      exact collapse_chain (c₂ :: rest)
    · rw [if_neg hb]
      rw [List.chain'_cons']
      refine ⟨?_, collapse_chain (c₂ :: rest)⟩
      intro y hy
      rw [collapse_head c₂ rest] at hy
      cases hy
      by_cases h1 : pyWS c₁
      · have h2 : pyWS c₂ = false := by
          by_contra hcon
          rw [Bool.not_eq_false] at hcon
          rw [h1, hcon] at hb
          exact hb rfl
        rw [if_pos h1, if_neg (by simp [h2])]
        intro hcon
        rw [h2] at hcon
        exact Bool.false_ne_true hcon.2
      · rw [if_neg h1]
        intro hcon
        rw [hcon.1] at h1
        exact absurd rfl h1

lemma collapse_eq_self :
    ∀ {l : List Char}, (∀ c ∈ l, pyWS c = true → c = ' ') →
      List.Chain' noWSPair l → collapseWS l = l
  | [], _, _ => rfl
  | [a], hws, _ => by
    rw [collapse_singleton]
    by_cases ha : pyWS a
    · rw [if_pos ha, hws a (List.mem_singleton_self a) ha]
    · rw [if_neg ha]
  | c₁ :: c₂ :: rest, hws, hch => by
    rw [List.chain'_cons] at hch
    have hnb : ¬(pyWS c₁ = true ∧ pyWS c₂ = true) := hch.1
    rw [collapse_cons_cons, if_neg (by
      intro hcon
      exact hnb (Bool.and_eq_true_iff.mp hcon))]
    rw [collapse_eq_self (fun c hc => hws c (List.mem_cons_of_mem _ hc)) hch.2]
    by_cases h1 : pyWS c₁
    · rw [if_pos h1, hws c₁ (List.mem_cons_self c₁ (c₂ :: rest)) h1]
    · rw [if_neg h1]

/-! ## C9 theorem -/

/-- C9: the text normalizer `_clean` is idempotent, total (never raises),
maps null and empty input to the empty string, and its output is in normal
form: every character is lowercase-fixed, every whitespace character in it
is a single space, no two adjacent characters are both whitespace, and it
neither starts nor ends with whitespace. -/
theorem clean_normalizer_laws :
    (∀ s : String, _clean (_clean s) = _clean s) ∧
    _cleanOpt none = "" ∧ _clean "" = "" ∧
    (∀ s : String, ∀ c ∈ (_clean s).data, Char.toLower c = c) ∧
    (∀ s : String, ∀ c ∈ (_clean s).data, pyWS c = true → c = ' ') ∧
    (∀ s : String, List.Chain' noWSPair (_clean s).data) ∧
    (∀ (s : String) (c : Char), (_clean s).data.head? = some c → pyWS c = false) ∧
    (∀ (s : String) (c : Char), (_clean s).data.getLast? = some c → pyWS c = false) := by
  have hdata : ∀ s : String, (_clean s).data = collapseWS (lowerL (stripL s.data)) :=
    fun s => rfl
  have hlow : ∀ s : String, ∀ c ∈ (_clean s).data, Char.toLower c = c := by
    intro s c hc
    rw [hdata] at hc
    rcases mem_collapse hc with h | h
    · rw [h]
      decide
    · obtain ⟨d, _, hd⟩ := List.mem_map.mp h
      rw [← hd]
      exact toLower_toLower d
  have hhead : ∀ (s : String) (c : Char), (_clean s).data.head? = some c →
      pyWS c = false := by
    intro s c hc
    rw [hdata] at hc
    cases hm : lowerL (stripL s.data) with
    | nil =>
      rw [hm, collapse_nil] at hc
      simp at hc
    | cons m0 mt =>
      rw [hm, collapse_head] at hc
      have hm0 : pyWS m0 = false := by
        have hh : (lowerL (stripL s.data)).head? = some m0 := by
          rw [hm]
          rfl
        unfold lowerL at hh
        rw [List.head?_map] at hh
        cases hs : (stripL s.data).head? with
        | none =>
          rw [hs] at hh
          simp at hh
        | some d =>
          rw [hs] at hh
          simp only [Option.map] at hh
          cases hh
          rw [pyWS_toLower]
          exact stripL_head_ws hs
      rw [if_neg (by simp [hm0])] at hc
      cases hc
      exact hm0
  have hlast : ∀ (s : String) (c : Char), (_clean s).data.getLast? = some c →
      pyWS c = false := by
    intro s c hc
    rw [hdata] at hc
    cases hm : (lowerL (stripL s.data)).getLast? with
    | none =>
      have hnil : lowerL (stripL s.data) = [] := by
        cases hmm : lowerL (stripL s.data) with
        | nil => rfl
        | cons m0 mt =>
          rw [hmm] at hm
          simp at hm
      rw [hnil, collapse_nil] at hc
      simp at hc
    | some d =>
      have hd : pyWS d = false := by
        unfold lowerL at hm
        rw [List.getLast?_map] at hm
        cases hs : (stripL s.data).getLast? with
        | none =>
          rw [hs] at hm
          simp at hm
        | some e =>
          rw [hs] at hm
          simp only [Option.map] at hm
          cases hm
          rw [pyWS_toLower]
          exact stripL_getLast_ws hs
      rw [collapse_getLast _ d hm hd] at hc
      cases hc
      exact hd
  have hwsonly : ∀ s : String, ∀ c ∈ (_clean s).data, pyWS c = true → c = ' ' := by
    intro s c hc
    rw [hdata] at hc
    exact collapse_ws_only hc
  have hchain : ∀ s : String, List.Chain' noWSPair (_clean s).data := by
    intro s
    rw [hdata]
    exact collapse_chain _
  refine ⟨?_, rfl, rfl, hlow, hwsonly, hchain, hhead, hlast⟩
  intro s
  apply congrArg String.mk
  have h1 : stripL (_clean s).data = (_clean s).data :=
    stripL_eq_self (hhead s) (hlast s)
  have h2 : lowerL (_clean s).data = (_clean s).data :=
    (List.map_congr_left (hlow s)).trans (List.map_id _)
  show collapseWS (lowerL (stripL (_clean s).data)) = (_clean s).data
  rw [h1, h2, hdata]
  exact collapse_eq_self (fun c hc => collapse_ws_only hc) (collapse_chain _)

/-- C9 witness: the laws applied at a concrete messy input. -/
theorem clean_normalizer_laws_witness :
    _clean (_clean "  Mixed \t CASE  text ") = _clean "  Mixed \t CASE  text " ∧
    Char.toLower 'm' = 'm' ∧ 'm' ∈ (_clean "  Mixed \t CASE  text ").data ∧
    ((_clean "  Mixed \t CASE  text ").data.head? = some 'm' → pyWS 'm' = false) ∧
    ((_clean "  Mixed \t CASE  text ").data.getLast? = some 't' → pyWS 't' = false) :=
  ⟨clean_normalizer_laws.1 "  Mixed \t CASE  text ",
   clean_normalizer_laws.2.2.2.1 "  Mixed \t CASE  text " 'm' (by decide),
   by decide,
   clean_normalizer_laws.2.2.2.2.2.2.1 "  Mixed \t CASE  text " 'm',
   clean_normalizer_laws.2.2.2.2.2.2.2 "  Mixed \t CASE  text " 't'⟩

/-! ## Bounds for the matcher: every reported block lies inside both lists -/

lemma chainLen_zero_left (junk : Char → Bool) (a b : List Char) (j : ℕ) :
    chainLen junk a b 0 j = if matchAt junk a b 0 j then 1 else 0 := rfl

lemma chainLen_succ_zero (junk : Char → Bool) (a b : List Char) (i : ℕ) :
    chainLen junk a b (i + 1) 0 = if matchAt junk a b (i + 1) 0 then 1 else 0 := rfl

lemma chainLen_succ_succ (junk : Char → Bool) (a b : List Char) (i j : ℕ) :
    chainLen junk a b (i + 1) (j + 1) =
      if matchAt junk a b (i + 1) (j + 1) then chainLen junk a b i j + 1 else 0 := rfl

lemma chainLen_le_left (junk : Char → Bool) (a b : List Char) :
    ∀ i j, chainLen junk a b i j ≤ i + 1 := by
  intro i
  induction i with
  | zero =>
    intro j
    rw [chainLen_zero_left]
    split <;> omega
  | succ i ih =>
    intro j
    cases j with
    | zero =>
      rw [chainLen_succ_zero]
      split <;> omega
    | succ j =>
      rw [chainLen_succ_succ]
      split
      · have := ih j
        omega
      · omega

lemma chainLen_le_right (junk : Char → Bool) (a b : List Char) :
    ∀ i j, chainLen junk a b i j ≤ j + 1 := by
  intro i
  induction i with
  | zero =>
    intro j
    rw [chainLen_zero_left]
    split <;> omega
  | succ i ih =>
    intro j
    cases j with
    | zero =>
      rw [chainLen_succ_zero]
      split <;> omega
    | succ j =>
      rw [chainLen_succ_succ]
      split
      · have := ih j
        omega
      · omega

lemma matchAt_lt {junk : Char → Bool} {a b : List Char} {i j : ℕ}
    (h : matchAt junk a b i j = true) : i < a.length ∧ j < b.length := by
  unfold matchAt at h
  split at h
  · next x y hx hy =>
    obtain ⟨h1, -⟩ := List.getElem?_eq_some.mp hx
    obtain ⟨h2, -⟩ := List.getElem?_eq_some.mp hy
    exact ⟨h1, h2⟩
  · exact absurd h (by simp)

lemma chainLen_pos {junk : Char → Bool} {a b : List Char} {i j : ℕ}
    (h : 0 < chainLen junk a b i j) : i < a.length ∧ j < b.length := by
  have hm : matchAt junk a b i j = true := by
    by_contra hm
    rw [Bool.not_eq_true] at hm
    rcases i with _ | i
    · rw [chainLen_zero_left, hm] at h
      simp at h
    · rcases j with _ | j
      · rw [chainLen_succ_zero, hm] at h
        simp at h
      · rw [chainLen_succ_succ, hm] at h
        simp at h
  exact matchAt_lt hm

lemma chainLen_oob {junk : Char → Bool} {a b : List Char} {i j : ℕ}
    (h : a.length ≤ i ∨ b.length ≤ j) : chainLen junk a b i j = 0 := by
  by_contra hc
  have := chainLen_pos (Nat.pos_of_ne_zero hc)
  omega

/-- Invariant: the candidate block lies inside both lists. -/
def InBounds (a b : List Char) (t : ℕ × ℕ × ℕ) : Prop :=
  t.1 + t.2.2 ≤ a.length ∧ t.2.1 + t.2.2 ≤ b.length

lemma upFold_inv {α : Type} (g : ℕ → α → α) (P : α → Prop)
    (hg : ∀ s x, P x → P (g s x)) :
    ∀ s c x, P x → P (upFold g s c x) := by
  intro s c
  induction c generalizing s with
  | zero => exact fun x h => h
  | succ c ih => exact fun x h => ih (s + 1) (g s x) (hg s x h)

lemma bestStep_inv {junk : Char → Bool} {a b : List Char} (i j : ℕ)
    {t : ℕ × ℕ × ℕ} (h : InBounds a b t) :
    InBounds a b (bestStep junk a b i j t) := by
  rw [show bestStep junk a b i j t =
    if t.2.2 < chainLen junk a b i j
    then (i + 1 - chainLen junk a b i j, j + 1 - chainLen junk a b i j,
      chainLen junk a b i j)
    else t from rfl]
  split
  · next hlt =>
    have hk : 0 < chainLen junk a b i j := by omega
    have hij := chainLen_pos hk
    have h1 := chainLen_le_left junk a b i j
    have h2 := chainLen_le_right junk a b i j
    exact ⟨by simp; omega, by simp; omega⟩
  · exact h

lemma bestEnd_inv (junk : Char → Bool) (a b : List Char) :
    InBounds a b (bestEnd junk a b) := by
  apply upFold_inv _ (InBounds a b)
  · intro s x hx
    apply upFold_inv _ (InBounds a b)
    · intro s' x' hx'
      exact bestStep_inv s s' hx'
    · exact hx
  · exact ⟨by simp, by simp⟩

lemma extLeft_succ_succ (f : Bool) (junk : Char → Bool) (a b : List Char)
    (bi bj k : ℕ) :
    extLeft f junk a b (bi + 1) (bj + 1) k =
      match a[bi]?, b[bj]? with
      | some x, some y =>
        if x = y && junk y = f then extLeft f junk a b bi bj (k + 1)
        else (bi + 1, bj + 1, k)
      | _, _ => (bi + 1, bj + 1, k) := rfl

lemma extLeft_spec (f : Bool) (junk : Char → Bool) (a b : List Char) :
    ∀ bi bj k, InBounds a b (bi, bj, k) →
      InBounds a b (extLeft f junk a b bi bj k) ∧
      k ≤ (extLeft f junk a b bi bj k).2.2 := by
  intro bi
  induction bi with
  | zero =>
    intro bj k h
    exact ⟨h, le_refl k⟩
  | succ bi ih =>
    intro bj k h
    cases bj with
    | zero => exact ⟨h, le_refl k⟩
    | succ bj =>
      rw [extLeft_succ_succ]
      split
      · next x y hx hy =>
        by_cases hc : x = y && junk y = f
        · rw [if_pos hc]
          have hb : InBounds a b (bi, bj, k + 1) := by
            obtain ⟨ha1, ha2⟩ := h
            simp only [InBounds] at ha1 ha2 ⊢
            omega
          obtain ⟨hr1, hr2⟩ := ih bj (k + 1) hb
          exact ⟨hr1, by omega⟩
        · rw [if_neg hc]
          exact ⟨h, le_refl k⟩
      · exact ⟨h, le_refl k⟩

lemma extRight_succ (f : Bool) (junk : Char → Bool) (a b : List Char)
    (fuel bi bj k : ℕ) :
    extRight f junk a b (fuel + 1) bi bj k =
      match a[bi + k]?, b[bj + k]? with
      | some x, some y =>
        if x = y && junk y = f then extRight f junk a b fuel bi bj (k + 1) else k
      | _, _ => k := rfl

lemma extRight_spec (f : Bool) (junk : Char → Bool) (a b : List Char) :
    ∀ fuel bi bj k, bi + k ≤ a.length → bj + k ≤ b.length →
      bi + extRight f junk a b fuel bi bj k ≤ a.length ∧
      bj + extRight f junk a b fuel bi bj k ≤ b.length ∧
      k ≤ extRight f junk a b fuel bi bj k := by
  intro fuel
  induction fuel with
  | zero => exact fun bi bj k h1 h2 => ⟨h1, h2, le_refl k⟩
  | succ fuel ih =>
    intro bi bj k h1 h2
    rw [extRight_succ]
    split
    · next x y hx hy =>
      by_cases hc : x = y && junk y = f
      · rw [if_pos hc]
        obtain ⟨hxa, -⟩ := List.getElem?_eq_some.mp hx
        obtain ⟨hyb, -⟩ := List.getElem?_eq_some.mp hy
        obtain ⟨hr1, hr2, hr3⟩ := ih bi bj (k + 1) (by omega) (by omega)
        exact ⟨hr1, hr2, by omega⟩
      · rw [if_neg hc]
        exact ⟨h1, h2, le_refl k⟩
    · exact ⟨h1, h2, le_refl k⟩

lemma findLongestMatch_inv (junk : Char → Bool) (a b : List Char) :
    InBounds a b (findLongestMatch junk a b) := by
  unfold findLongestMatch
  have h0 := bestEnd_inv junk a b
  obtain ⟨h1, hk1⟩ := extLeft_spec false junk a b (bestEnd junk a b).1
    (bestEnd junk a b).2.1 (bestEnd junk a b).2.2 h0
  set t₁ := extLeft false junk a b (bestEnd junk a b).1 (bestEnd junk a b).2.1
    (bestEnd junk a b).2.2 with ht₁
  obtain ⟨h2a, h2b, hk2⟩ := extRight_spec false junk a b (a.length + 1)
    t₁.1 t₁.2.1 t₁.2.2 h1.1 h1.2
  obtain ⟨h3, hk3⟩ := extLeft_spec true junk a b t₁.1 t₁.2.1
    (extRight false junk a b (a.length + 1) t₁.1 t₁.2.1 t₁.2.2) ⟨h2a, h2b⟩
  set t₃ := extLeft true junk a b t₁.1 t₁.2.1
    (extRight false junk a b (a.length + 1) t₁.1 t₁.2.1 t₁.2.2) with ht₃
  obtain ⟨h4a, h4b, hk4⟩ := extRight_spec true junk a b (a.length + 1)
    t₃.1 t₃.2.1 t₃.2.2 h3.1 h3.2
  exact ⟨h4a, h4b⟩

lemma matchTotal_le (junk : Char → Bool) :
    ∀ (fuel : ℕ) (a b : List Char),
      matchTotal junk fuel a b ≤ min a.length b.length := by
  intro fuel
  induction fuel with
  | zero => intro a b; simp [matchTotal]
  | succ fuel ih =>
    intro a b
    rw [show matchTotal junk (fuel + 1) a b =
      (if (findLongestMatch junk a b).2.2 = 0 then 0
      else (findLongestMatch junk a b).2.2 +
        matchTotal junk fuel (a.take (findLongestMatch junk a b).1)
          (b.take (findLongestMatch junk a b).2.1) +
        matchTotal junk fuel
          (a.drop ((findLongestMatch junk a b).1 + (findLongestMatch junk a b).2.2))
          (b.drop ((findLongestMatch junk a b).2.1 + (findLongestMatch junk a b).2.2)))
      from rfl]
    split
    · omega
    · obtain ⟨hb1, hb2⟩ := findLongestMatch_inv junk a b
      have hm1 := ih (a.take (findLongestMatch junk a b).1)
        (b.take (findLongestMatch junk a b).2.1)
      have hm2 := ih (a.drop ((findLongestMatch junk a b).1 + (findLongestMatch junk a b).2.2))
        (b.drop ((findLongestMatch junk a b).2.1 + (findLongestMatch junk a b).2.2))
      rw [List.length_take, List.length_take] at hm1
      rw [List.length_drop, List.length_drop] at hm2
      omega

/-- The ratio is always between 0 and 1. -/
lemma seqRatio_bounds (a b : List Char) : 0 ≤ seqRatio a b ∧ seqRatio a b ≤ 1 := by
  unfold seqRatio
  by_cases h : a.length + b.length = 0
  · rw [if_pos h]
    norm_num
  · rw [if_neg h]
    have hM := matchTotal_le (bJunk b) (a.length + b.length + 1) a b
    have hpos : (0 : ℚ) < (a.length : ℚ) + (b.length : ℚ) := by
      have : 0 < a.length + b.length := Nat.pos_of_ne_zero h
      exact_mod_cast this
    constructor
    · apply div_nonneg _ (le_of_lt hpos)
      positivity
    · rw [div_le_one hpos]
      have h2 : 2 * matchTotal (bJunk b) (a.length + b.length + 1) a b ≤
          a.length + b.length := by omega
      exact_mod_cast h2

/-! ## Identical sequences: the scan always reports a diagonal block -/

lemma matchAt_iff (junk : Char → Bool) (s : List Char) (i j : ℕ) :
    matchAt junk s s i j = true ↔
      ∃ x, s[i]? = some x ∧ s[j]? = some x ∧ junk x = false := by
  unfold matchAt
  split
  · next x y hx hy =>
    simp only [Bool.and_eq_true, decide_eq_true_eq, Bool.not_eq_true']
    constructor
    · rintro ⟨rfl, hj⟩
      exact ⟨x, hx, hy, hj⟩
    · rintro ⟨z, hz1, hz2, hz3⟩
      rw [hx] at hz1
      rw [hy] at hz2
      cases hz1
      cases hz2
      exact ⟨rfl, hz3⟩
  · next hno =>
    constructor
    · intro h
      exact absurd h (by simp)
    · rintro ⟨z, hz1, hz2, hz3⟩
      exact absurd (hno z z hz1 hz2) (by simp)

lemma matchAt_self_diag {junk : Char → Bool} {s : List Char} {i j : ℕ}
    (h : matchAt junk s s i j = true) :
    matchAt junk s s i i = true ∧ matchAt junk s s j j = true := by
  obtain ⟨x, h1, h2, h3⟩ := (matchAt_iff junk s i j).mp h
  exact ⟨(matchAt_iff junk s i i).mpr ⟨x, h1, h1, h3⟩,
    (matchAt_iff junk s j j).mpr ⟨x, h2, h2, h3⟩⟩

lemma chainLen_pos_of_matchAt {junk : Char → Bool} {a b : List Char} {i j : ℕ}
    (h : matchAt junk a b i j = true) : 1 ≤ chainLen junk a b i j := by
  rcases i with _ | i
  · rw [chainLen_zero_left, h]
    simp
  · rcases j with _ | j
    · rw [chainLen_succ_zero, h]
      simp
    · rw [chainLen_succ_succ, h]
      simp

lemma chainLen_self_right (junk : Char → Bool) (s : List Char) :
    ∀ i j, i ≤ j → chainLen junk s s i j ≤ chainLen junk s s i i := by
  intro i
  induction i with
  | zero =>
    intro j _
    rw [chainLen_zero_left]
    split
    · next h => exact chainLen_pos_of_matchAt (matchAt_self_diag h).1
    · omega
  | succ i ih =>
    intro j hij
    rcases j with _ | j
    · omega
    · rw [chainLen_succ_succ]
      split
      · next h =>
        rw [chainLen_succ_succ, (matchAt_self_diag h).1]
        simp only [if_true]
        have := ih j (by omega)
        omega
      · omega

lemma chainLen_self_left (junk : Char → Bool) (s : List Char) :
    ∀ i j, j ≤ i → chainLen junk s s i j ≤ chainLen junk s s j j := by
  intro i
  induction i with
  | zero =>
    intro j hj
    have : j = 0 := by omega
    subst this
    exact le_refl _
  | succ i ih =>
    intro j hij
    rcases j with _ | j
    · rw [chainLen_succ_zero]
      split
      · next h => exact chainLen_pos_of_matchAt (matchAt_self_diag h).2
      · omega
    · rw [chainLen_succ_succ]
      split
      · next h =>
        rw [chainLen_succ_succ, (matchAt_self_diag h).2]
        simp only [if_true]
        have := ih j (by omega)
        omega
      · omega

/-- Accumulator shape during the self-scan: initial, or a diagonal block. -/
def DiagAcc (t : ℕ × ℕ × ℕ) : Prop :=
  t = (0, 0, 0) ∨ (1 ≤ t.2.2 ∧ t.1 = t.2.1)

/-- Invariant at cell `(i, j)` of the self-scan: the accumulator is diagonal
and dominates every previously scanned chain. -/
def ScanInv (junk : Char → Bool) (s : List Char) (i j : ℕ) (t : ℕ × ℕ × ℕ) : Prop :=
  DiagAcc t ∧
    ∀ i' j', (i' < i ∨ (i' = i ∧ j' < j)) → chainLen junk s s i' j' ≤ t.2.2

lemma upFold_ind {α : Type} (g : ℕ → α → α) (P : ℕ → α → Prop)
    (hg : ∀ t x, P t x → P (t + 1) (g t x)) :
    ∀ s c x, P s x → P (s + c) (upFold g s c x) := by
  intro s c
  induction c generalizing s with
  | zero => exact fun x h => h
  | succ c ih =>
    intro x h
    have := ih (s + 1) (g s x) (hg s x h)
    have heq : s + 1 + c = s + (c + 1) := by omega
    exact heq ▸ this

lemma bestStep_self_inv {junk : Char → Bool} {s : List Char} (i j : ℕ)
    {t : ℕ × ℕ × ℕ} (h : ScanInv junk s i j t) :
    ScanInv junk s i (j + 1) (bestStep junk s s i j t) := by
  rw [show bestStep junk s s i j t =
    if t.2.2 < chainLen junk s s i j
    then (i + 1 - chainLen junk s s i j, j + 1 - chainLen junk s s i j,
      chainLen junk s s i j)
    else t from rfl]
  by_cases hlt : t.2.2 < chainLen junk s s i j
  · rw [if_pos hlt]
    have hij : i = j := by
      rcases lt_trichotomy i j with hij | hij | hij
      · have h1 := chainLen_self_right junk s i j (le_of_lt hij)
        have h2 := h.2 i i (Or.inr ⟨rfl, hij⟩)
        omega
      · exact hij
      · have h1 := chainLen_self_left junk s i j (le_of_lt hij)
        have h2 := h.2 j j (Or.inl hij)
        omega
    subst hij
    constructor
    · exact Or.inr ⟨by simp; omega, by simp⟩
    · intro i' j' hij'
      simp only
      rcases hij' with h' | ⟨rfl, h'⟩
      · have := h.2 i' j' (Or.inl h')
        omega
      · rcases Nat.lt_succ_iff_lt_or_eq.mp h' with h'' | rfl
        · have := h.2 i' j' (Or.inr ⟨rfl, h''⟩)
          omega
        · exact le_refl _
  · rw [if_neg hlt]
    refine ⟨h.1, ?_⟩
    intro i' j' hij'
    rcases hij' with h' | ⟨rfl, h'⟩
    · exact h.2 i' j' (Or.inl h')
    · rcases Nat.lt_succ_iff_lt_or_eq.mp h' with h'' | rfl
      · exact h.2 i' j' (Or.inr ⟨rfl, h''⟩)
      · omega

lemma bestEnd_self_spec (junk : Char → Bool) (s : List Char) :
    DiagAcc (bestEnd junk s s) ∧
      ∀ i j, chainLen junk s s i j ≤ (bestEnd junk s s).2.2 := by
  have hrow : ∀ i x, ScanInv junk s i 0 x →
      ScanInv junk s (i + 1) 0
        (upFold (fun j acc' => bestStep junk s s i j acc') 0 s.length x) := by
    intro i x hx
    have hscan := upFold_ind (fun j acc' => bestStep junk s s i j acc')
      (fun j acc' => ScanInv junk s i j acc')
      (fun j acc' h' => bestStep_self_inv i j h') 0 s.length x (by simpa using hx)
    rw [Nat.zero_add] at hscan
    refine ⟨hscan.1, ?_⟩
    intro i' j' hij'
    rcases hij' with h' | ⟨rfl, h'⟩
    · rcases Nat.lt_succ_iff_lt_or_eq.mp h' with h'' | rfl
      · exact hscan.2 i' j' (Or.inl h'')
      · by_cases hj : j' < s.length
        · exact hscan.2 i' j' (Or.inr ⟨rfl, hj⟩)
        · rw [chainLen_oob (Or.inr (by omega))]
          omega
    · omega
  have hfinal := upFold_ind
    (fun i acc => upFold (fun j acc' => bestStep junk s s i j acc') 0 s.length acc)
    (fun i acc => ScanInv junk s i 0 acc) hrow 0 s.length (0, 0, 0)
    ⟨Or.inl rfl, by
      intro i' j' h'
      rcases h' with h' | ⟨_, h'⟩ <;> omega⟩
  rw [Nat.zero_add] at hfinal
  refine ⟨hfinal.1, ?_⟩
  intro i j
  by_cases hi : i < s.length
  · exact hfinal.2 i j (Or.inl hi)
  · rw [chainLen_oob (Or.inl (by omega))]
    omega

/-! ## The extension loops preserve diagonality -/

lemma extLeft_diag (f : Bool) (junk : Char → Bool) (s : List Char) :
    ∀ bi k, ∃ p k', extLeft f junk s s bi bi k = (p, p, k') ∧
      k ≤ k' ∧ p + k' = bi + k := by
  intro bi
  induction bi with
  | zero => exact fun k => ⟨0, k, rfl, le_refl k, rfl⟩
  | succ bi ih =>
    intro k
    rw [extLeft_succ_succ]
    split
    · next x y hx hy =>
      have hxy : x = y := by
        rw [hx] at hy
        exact Option.some.inj hy
      subst hxy
      by_cases hc : x = x && junk x = f
      · rw [if_pos hc]
        obtain ⟨p, k', hrec, hk, hsum⟩ := ih (k + 1)
        exact ⟨p, k', hrec, by omega, by omega⟩
      · rw [if_neg hc]
        exact ⟨bi + 1, k, rfl, le_refl k, rfl⟩
    · exact ⟨bi + 1, k, rfl, le_refl k, rfl⟩

lemma extRight_true_all_junk (junk : Char → Bool) (s : List Char)
    (hall : ∀ (m : ℕ) (x : Char), s[m]? = some x → junk x = true) :
    ∀ fuel k, k ≤ s.length → s.length ≤ k + fuel →
      extRight true junk s s fuel 0 0 k = s.length := by
  intro fuel
  induction fuel with
  | zero =>
    intro k h1 h2
    have : k = s.length := by omega
    simpa using this
  | succ fuel ih =>
    intro k h1 h2
    rw [extRight_succ]
    simp only [Nat.zero_add]
    split
    · next x y hx hy =>
      have hxy : x = y := by
        rw [hx] at hy
        exact Option.some.inj hy
      subst hxy
      rw [if_pos (by simp [hall k x hx])]
      obtain ⟨hklt, -⟩ := List.getElem?_eq_some.mp hx
      exact ih (k + 1) (by omega) (by omega)
    · next hno =>
      by_cases hk : k < s.length
      · have hx : s[k]? = some (s.get ⟨k, hk⟩) := List.getElem?_eq_getElem hk
        exact absurd (hno _ _ hx hx) (by simp)
      · omega

/-- For a list matched against itself, `find_longest_match` reports a
diagonal block, nonempty whenever the list is. -/
lemma findLongestMatch_self (junk : Char → Bool) (s : List Char) (hs : s ≠ []) :
    ∃ p k, findLongestMatch junk s s = (p, p, k) ∧ 1 ≤ k ∧ p + k ≤ s.length := by
  obtain ⟨hdiag, hdom⟩ := bestEnd_self_spec junk s
  have hinv := bestEnd_inv junk s s
  rcases hdiag with h0 | ⟨hk0, hd0⟩
  · -- every character of `s` is junk: the final junk extension sweeps the
    -- whole list
    have hall : ∀ (m : ℕ) (x : Char), s[m]? = some x → junk x = true := by
      intro m x hm
      by_contra hj
      rw [Bool.not_eq_true] at hj
      have hmm : matchAt junk s s m m = true :=
        (matchAt_iff junk s m m).mpr ⟨x, hm, hm, hj⟩
      have := chainLen_pos_of_matchAt hmm
      have := hdom m m
      rw [h0] at this
      simp at this
      omega
    obtain ⟨c, t, rfl⟩ := List.exists_cons_of_ne_nil hs
    have hx0 : (c :: t)[0]? = some c := by simp
    have hjc : junk c = true := hall 0 c hx0
    have e1 : extLeft false junk (c :: t) (c :: t) 0 0 0 = (0, 0, 0) := rfl
    have e2 : extRight false junk (c :: t) (c :: t) ((c :: t).length + 1) 0 0 0 = 0 := by
      rw [extRight_succ]
      simp only [Nat.zero_add, hx0]
      rw [if_neg (by simp [hjc])]
    have e3 : extLeft true junk (c :: t) (c :: t) 0 0 0 = (0, 0, 0) := rfl
    have e4 : extRight true junk (c :: t) (c :: t) ((c :: t).length + 1) 0 0 0 =
        (c :: t).length :=
      extRight_true_all_junk junk (c :: t) hall _ 0 (by omega) (by omega)
    unfold findLongestMatch
    simp only [h0, e1, e2, e3, e4]
    exact ⟨0, (c :: t).length, rfl, by simp, by omega⟩
  · -- the scan produced a diagonal nonempty block; the four extension loops
    -- keep it diagonal
    obtain ⟨p₁, k₁, e₁, hk₁, hs₁⟩ := extLeft_diag false junk s (bestEnd junk s s).1
      (bestEnd junk s s).2.2
    have hp₁ : p₁ + k₁ ≤ s.length := by
      have := hinv.1
      omega
    obtain ⟨h2a, h2b, hk₂⟩ := extRight_spec false junk s s (s.length + 1) p₁ p₁ k₁
      hp₁ hp₁
    obtain ⟨p₃, k₃, e₃, hk₃, hs₃⟩ := extLeft_diag true junk s p₁
      (extRight false junk s s (s.length + 1) p₁ p₁ k₁)
    have hp₃ : p₃ + k₃ ≤ s.length := by omega
    obtain ⟨h4a, h4b, hk₄⟩ := extRight_spec true junk s s (s.length + 1) p₃ p₃ k₃
      hp₃ hp₃
    unfold findLongestMatch
    simp only [← hd0, e₁, e₃]
    exact ⟨p₃, extRight true junk s s (s.length + 1) p₃ p₃ k₃, rfl, by omega, by omega⟩

/-- Matching a list against itself matches everything. -/
lemma matchTotal_self (junk : Char → Bool) :
    ∀ (fuel : ℕ) (s : List Char), s.length < fuel →
      matchTotal junk fuel s s = s.length := by
  intro fuel
  induction fuel with
  | zero =>
    intro s h
    omega
  | succ fuel ih =>
    intro s h
    by_cases hs : s = []
    · subst hs
      rfl
    · obtain ⟨p, k, hflm, hk1, hpk⟩ := findLongestMatch_self junk s hs
      rw [show matchTotal junk (fuel + 1) s s =
        (if (findLongestMatch junk s s).2.2 = 0 then 0
        else (findLongestMatch junk s s).2.2 +
          matchTotal junk fuel (s.take (findLongestMatch junk s s).1)
            (s.take (findLongestMatch junk s s).2.1) +
          matchTotal junk fuel
            (s.drop ((findLongestMatch junk s s).1 + (findLongestMatch junk s s).2.2))
            (s.drop ((findLongestMatch junk s s).2.1 + (findLongestMatch junk s s).2.2)))
        from rfl, hflm]
      simp only
      rw [if_neg (by omega)]
      have e1 := ih (s.take p) (by rw [List.length_take]; omega)
      have e2 := ih (s.drop (p + k)) (by rw [List.length_drop]; omega)
      rw [e1, e2, List.length_take, List.length_drop]
      omega

/-- The ratio of a character list against itself is 1. -/
lemma seqRatio_self (l : List Char) : seqRatio l l = 1 := by
  simp only [seqRatio]
  by_cases h : l.length + l.length = 0
  · rw [if_pos h]
  · rw [if_neg h]
    rw [matchTotal_self (bJunk l) (l.length + l.length + 1) l (by omega)]
    have hne : ((l.length : ℚ) + (l.length : ℚ)) ≠ 0 := by
      have : l.length ≠ 0 := by omega
      positivity
    rw [div_eq_one_iff_eq hne]
    ring

/-! ## C7 theorems -/

/-- C7 counterexample: the fuzzy similarity of the Project Relevance Scorer
is not symmetric — `SequenceMatcher`'s greedy longest-block scan is order
dependent: similarity("aba", "babba") = 0.75 but similarity("babba", "aba")
= 0.5 (exactly as CPython's difflib computes them). -/
theorem similarity_not_symmetric :
    _similarity "aba" "babba" ≠ _similarity "babba" "aba" := by
  have hc1 : _clean "aba" = "aba" := by decide
  have hc2 : _clean "babba" = "babba" := by decide
  have hM1 : matchTotal (bJunk "babba".data)
      ("aba".data.length + "babba".data.length + 1) "aba".data "babba".data = 3 := by
    decide
  have hM2 : matchTotal (bJunk "aba".data)
      ("babba".data.length + "aba".data.length + 1) "babba".data "aba".data = 2 := by
    decide
  have e1 : _similarity "aba" "babba" =
      (2 * (3 : ℕ) : ℚ) / (("aba".data.length : ℚ) + ("babba".data.length : ℚ)) := by
    unfold _similarity
    rw [hc1, hc2]
    simp only [seqRatio]
    rw [hM1, if_neg (by decide)]
  have e2 : _similarity "babba" "aba" =
      (2 * (2 : ℕ) : ℚ) / (("babba".data.length : ℚ) + ("aba".data.length : ℚ)) := by
    unfold _similarity
    rw [hc1, hc2]
    simp only [seqRatio]
    rw [hM2, if_neg (by decide)]
  rw [e1, e2, show "aba".data.length = 3 from by decide,
    show "babba".data.length = 5 from by decide]
  norm_num

/-- C7 (amended): the pairwise fuzzy similarity always lies in [0, 1] and
equals 1.0 whenever the two strings are identical after normalization; it is
not symmetric in general. -/
theorem similarity_range_and_identity (a b : String) :
    0 ≤ _similarity a b ∧ _similarity a b ≤ 1 ∧
    (_clean a = _clean b → _similarity a b = 1) := by
  refine ⟨(seqRatio_bounds (_clean a).data (_clean b).data).1,
    (seqRatio_bounds (_clean a).data (_clean b).data).2, fun h => ?_⟩
  unfold _similarity
  rw [h]
  exact seqRatio_self (_clean b).data

/-- C7 amended-claim witness: two strings that normalize identically have
similarity exactly 1. -/
theorem similarity_range_and_identity_witness :
    _clean "Aba " = _clean " aba" ∧ _similarity "Aba " " aba" = 1 :=
  ⟨by decide, (similarity_range_and_identity "Aba " " aba").2.2 (by decide)⟩

end RoleSync
